import Mathlib

/-!
Shallow embedding of the WolofSHIELD/Paillier_rsc repository core
(Paillier encryption, Catalano–Fiore lifting, KEA layer, key registry,
key storage) together with theorems checking the natural-language
specification against the code.

BigUint / BigInt values are embedded as Nat / Int.  Randomized code is
embedded by passing the sampled value explicitly (the rejection-sampling
loops only constrain which values can appear; the constraints become
hypotheses).  Unbounded while-loops whose state strictly decreases are
embedded with an explicit fuel argument that is always sufficient at the
call sites used here, so that every definition kernel-evaluates.
-/

namespace PaillierRsc

/-- Error enum of src/crypto_error/crypto_error.rs (CryptoError). -/
inductive CryptoError where
  | MessageOutOfRange
  | CiphertextOutOfRange
  | KeySizeTooSmall (requested minimum : Nat)
  | NoModularInverse
  | NegativeConversion
  | HexParseError
  | HexFieldTooLong (actual maximum : Nat)
  | KeyCoherenceError
  | KeaImVerFailed
  | InvalidInput (msg : String)
  deriving DecidableEq, Repr

/-- Registry error enum of src/key_management/key_registry.rs (RegistryError). -/
inductive RegistryError where
  | NoPaillierKey
  | NoKeaKey
  | LockPoisoned
  deriving DecidableEq, Repr

/-- PublicKey of src/paillier/p_keygen/p_keygen.rs. -/
structure PublicKey where
  n : Nat
  g : Nat
  n_squared : Nat
  deriving DecidableEq, Repr

/-- SecretKey of src/paillier/p_keygen/p_keygen.rs. -/
structure SecretKey where
  lambda : Nat
  mu : Nat
  deriving DecidableEq, Repr

/-- KeyPair of src/paillier/p_keygen/p_keygen.rs. -/
structure KeyPair where
  public_key : PublicKey
  secret_key : SecretKey
  deriving DecidableEq, Repr

/-- KeyPairKEA of src/paillier_kea/paillier_kea_keygen.rs. -/
structure KeyPairKEA where
  pk : PublicKey
  ct_delta : Nat × Nat
  psy : Nat
  deriving DecidableEq, Repr

/-- Halving loop computing a bit length; the value halves each step, so fuel at
least the value itself always reaches 0. -/
def bits_go : Nat → Nat → Nat
  | 0, _ => 0
  | fuel + 1, a => if a = 0 then 0 else bits_go fuel (a / 2) + 1

/-- BigUint::bits(): bit length of a non-negative integer, 0 for 0. -/
def bitsOf (a : Nat) : Nat := bits_go a a

/-- l_function of src/paillier/math/math.rs: L(u) = (u - 1) / n, integer division. -/
def l_function (u n : Nat) : Nat := (u - 1) / n

/-- gcd of src/paillier/math/math.rs (delegates to the bignum library gcd). -/
def gcd (a b : Nat) : Nat := Nat.gcd a b

/-- lcm of src/paillier/math/math.rs: (a * b) / gcd(a, b). -/
def lcm (a b : Nat) : Nat := a * b / gcd a b

/-- BigUint::modpow(e, n): modular exponentiation. -/
def powMod (b e n : Nat) : Nat := b ^ e % n

/-- Loop body of extended_gcd in src/paillier/math/math.rs.  The Rust loop runs on
BigInt, but old_r and r start from BigUint values and remain non-negative, so the
r-track is embedded over Nat (Rust / and % on non-negative BigInt agree with Nat
division).  Consecutive remainders at least halve every two iterations, so the
loop exits within 2 * bits(r) + 3 iterations; the fuel passed by extended_gcd
below is always sufficient, and the fuel-0 fallback returns the same state the
exhausted loop would be in. -/
def egcd_go : Nat → Nat → Nat → Int → Int → Int → Int → (Nat × Int × Int)
  | 0, old_r, _, old_s, _, old_t, _ => (old_r, old_s, old_t)
  | fuel + 1, old_r, r, old_s, s, old_t, t =>
    if r = 0 then (old_r, old_s, old_t)
    else
      let quotient : Nat := old_r / r
      egcd_go fuel r (old_r % r) s (old_s - (quotient : Int) * s)
        t (old_t - (quotient : Int) * t)

/-- extended_gcd of src/paillier/math/math.rs: returns (gcd, x, y) with
gcd = a * x + b * y. -/
def extended_gcd (a b : Nat) : Nat × Int × Int :=
  egcd_go (2 * bitsOf b + 4) a b 1 0 0 1

/-- mod_inverse of src/paillier/math/math.rs.  Rust BigInt % is truncated
remainder, embedded as Int.tmod; to_biguint().ok_or(NegativeConversion) fails
exactly on a negative value. -/
def mod_inverse (a n : Nat) : Except CryptoError Nat :=
  let gxy := extended_gcd a n
  if gxy.1 ≠ 1 then .error .NoModularInverse
  else
    let x := gxy.2.1
    let x_mod := Int.tmod x (n : Int)
    let x_mod2 := if x_mod < 0 then x_mod + (n : Int) else x_mod
    if x_mod2 < 0 then .error .NegativeConversion
    else .ok x_mod2.toNat

/-- montgomery_reduce of src/montgomery/montgomery.rs: multiplies by the inverse
of R = 2^bits(n) modulo n; unwrap_or_default turns a failed inversion into 0. -/
def montgomery_reduce (t n : Nat) : Nat :=
  let r := 2 ^ bitsOf n
  let r_inv := ((mod_inverse r n).toOption).getD 0
  t * r_inv % n

/-- karatsuba_mul of src/montgomery/montgomery.rs.  Nat subtraction truncates at
zero where the Rust BigUint subtraction would panic on underflow; the concrete
inputs used in theorems below never underflow. -/
def karatsuba_mul (a b n : Nat) : Nat :=
  let a_bits := bitsOf a
  let b_bits := bitsOf b
  if a_bits < 64 ∨ b_bits < 64 then a * b % n
  else
    let k := max a_bits b_bits / 2
    let base := 2 ^ k
    let a_high := a / 2 ^ k
    let a_low := a % base
    let b_high := b / 2 ^ k
    let b_low := b % base
    let z0 := montgomery_reduce (a_low * b_low) n
    let z2 := montgomery_reduce (a_high * b_high) n
    let z1 := montgomery_reduce ((a_low + a_high) * (b_low + b_high)) n
    let z1b := ((z1 + n + n - z0) % n - z2 + n) % n
    (z2 * 2 ^ (2 * k) + z1b * 2 ^ k + z0) % n

/-- multiple_precision_mul of src/montgomery/montgomery.rs: always Ok, and
reduces modulo pk.n (not pk.n_squared). -/
def multiple_precision_mul (a b : Nat) (pk : PublicKey) : Except CryptoError Nat :=
  .ok (karatsuba_mul a b pk.n)

/-- p_encrypt of src/paillier/p_encrypt/p_encrypt.rs.  The rejection-sampled
random r (uniform in [1, n) with gcd(r, n) = 1) is passed explicitly. -/
def p_encrypt (m r : Nat) (pk : PublicKey) : Except CryptoError Nat :=
  if pk.n ≤ m then .error .MessageOutOfRange
  else .ok (powMod pk.g m pk.n_squared * powMod r pk.n pk.n_squared % pk.n_squared)

/-- p_decrypt of src/paillier/p_decrypt/p_decrypt.rs. -/
def p_decrypt (c : Nat) (pk : PublicKey) (sk : SecretKey) : Except CryptoError Nat :=
  if pk.n_squared ≤ c then .error .CiphertextOutOfRange
  else .ok (l_function (powMod c sk.lambda pk.n_squared) pk.n * sk.mu % pk.n)

/-- p_keygen of src/paillier/p_keygen/p_keygen.rs, with the two safe primes
returned by generate_safe_prime passed explicitly; the while p == q retry loop
is reflected by the p ≠ q hypothesis at use sites. -/
def p_keygen_core (p q : Nat) : Except CryptoError KeyPair :=
  let n := p * q
  let n_squared := n * n
  let p_minus_1 := p - 1
  let q_minus_1 := q - 1
  let phi_n := p_minus_1 * q_minus_1
  if gcd n phi_n ≠ 1 then .error .NoModularInverse
  else
    let lam := lcm p_minus_1 q_minus_1
    let g := n + 1
    let g_lambda := (1 + lam * n) % n_squared
    let l_g_lambda := l_function g_lambda n
    if gcd l_g_lambda n ≠ 1 then .error .NoModularInverse
    else
      (mod_inverse l_g_lambda n).map fun mu =>
        ⟨⟨n, g, n_squared⟩, ⟨lam, mu⟩⟩

/-- Safe prime: p and (p - 1) / 2 are both prime (spec glossary; the guarantee
of generate_safe_prime on its output). -/
def SafePrime (p : Nat) : Prop := Nat.Prime p ∧ Nat.Prime ((p - 1) / 2)

/-- Sophie-Germain candidate of generate_safe_prime in src/paillier/math/math.rs:
a random draw below 2^(nbits - 1) with bits nbits - 2, nbits - 3 and 0 forced on.
The draw x is passed explicitly (gen_biguint(nbits - 1) is x % 2^(nbits - 1)). -/
def sophie_candidate (nbits x : Nat) : Nat :=
  x % 2 ^ (nbits - 1) ||| 2 ^ (nbits - 2) ||| 2 ^ (nbits - 3) ||| 1

/-- generate_safe_prime of src/paillier/math/math.rs.  The sieve and the
Miller-Rabin tests only discard draws and never alter the returned value, so the
function is embedded on the draw x that the loop accepts: the returned value is
2 * sophie_candidate + 1 for that draw. -/
def generate_safe_prime (nbits x : Nat) : Except CryptoError Nat :=
  if nbits < 128 then .error (.KeySizeTooSmall nbits 128)
  else if nbits < 4 then .error (.KeySizeTooSmall nbits 4)
  else .ok (2 * sophie_candidate nbits x + 1)

/-- cf_encrypt of src/fiore_catalano/cf_encrypt/cf_encrypt.rs.  The random r of
the inner p_encrypt is passed explicitly. -/
def cf_encrypt (message masque r : Nat) (pk : PublicKey) :
    Except CryptoError (Nat × Nat) :=
  if pk.n ≤ message then .error .MessageOutOfRange
  else
    let m := message % pk.n
    let rm := masque % pk.n
    let c0 := if rm ≤ m then m - rm else m + pk.n - rm
    let c0 := c0 % pk.n
    (p_encrypt rm r pk).map fun c1 => (c0, c1)

/-- cf_add of src/fiore_catalano/cf_add/cf_add.rs: the second component is
multiple_precision_mul (karatsuba_mul modulo n), then reduced modulo n_squared. -/
def cf_add (ciphert0 ciphert1 : Nat × Nat) (n n_squared : Nat) : Nat × Nat :=
  let c0_snd := (ciphert0.1 + ciphert1.1) % n
  let c1_snd := karatsuba_mul ciphert0.2 ciphert1.2 n % n_squared
  (c0_snd, c1_snd)

/-- cf_mul of src/fiore_catalano/cf_mul/cf_mul.rs.  The random r of the inner
p_encrypt is passed explicitly as rE.  Note: the code computes c1c0_p but then
multiplies by c1_pc0 twice. -/
def cf_mul (ciphert ciphert1 : Nat × Nat) (rE : Nat) (pk : PublicKey) :
    Except CryptoError (Nat × Nat × Nat) := do
  let c0 := ciphert.1
  let c1 := ciphert.2
  let c0_p := ciphert1.1
  let c1_p := ciphert1.2
  let product_c0 ← multiple_precision_mul c0 c0_p pk
  let enc_product ← p_encrypt product_c0 rE pk
  let _c1c0_p := powMod c1 c0_p pk.n_squared
  let c1_pc0 := powMod c1_p c0 pk.n_squared
  let product_enc_c1c0_p ← multiple_precision_mul enc_product c1_pc0 pk
  let c0_snd ← multiple_precision_mul product_enc_c1c0_p c1_pc0 pk
  return (c0_snd, c1, c1_p)

/-- cf_mul_dec of src/fiore_catalano/cf_mul_dec/cf_mul_dec.rs. -/
def cf_mul_dec (ciphert : Nat × Nat × Nat) (pk : PublicKey) (sk : SecretKey) :
    Except CryptoError Nat := do
  let dec_c0 ← p_decrypt ciphert.1 pk sk
  let dec_c1 ← p_decrypt ciphert.2.1 pk sk
  let dec_c2 ← p_decrypt ciphert.2.2 pk sk
  return (dec_c0 + dec_c1 * dec_c2) % pk.n

/-- paillier_kea_img_verif of src/paillier_kea/paillier_kea_img_verif.rs. -/
def paillier_kea_img_verif (pk : PublicKey) (sk : SecretKey) (psy : Nat)
    (ct : Nat × Nat) : Except CryptoError Bool := do
  let mu_0 ← p_decrypt ct.1 pk sk
  let mu_1 ← p_decrypt ct.2 pk sk
  let attendu := psy * mu_0 % pk.n
  return attendu == mu_1

/-- paillier_kea_decrypt of src/paillier_kea/paillier_kea_decrypt.rs. -/
def paillier_kea_decrypt (pk : PublicKey) (sk : SecretKey) (psy : Nat)
    (ct : Nat × Nat) : Except CryptoError Nat := do
  let valid ← paillier_kea_img_verif pk sk psy ct
  if !valid then .error .KeaImVerFailed
  else p_decrypt ct.1 pk sk

/-- MAX_HEX_FIELD_LEN of src/key_management/key_storage.rs. -/
def MAX_HEX_FIELD_LEN : Nat := 3072

/-- Uppercase hexadecimal digit character for a value below 16 (the composition
of to_str_radix(16) with to_uppercase in biguint_to_hex). -/
def hex_digit_char (d : Nat) : Char :=
  if d < 10 then Char.ofNat (48 + d) else Char.ofNat (55 + d)

/-- Digit-emitting loop of to_str_radix(16): most significant digit first.  The
value is divided by 16 each step, so fuel at least the value itself always
reaches the single-digit case; the fuel-0 fallback is never taken from
biguint_to_hex. -/
def to_hex_go : Nat → Nat → List Char
  | 0, _ => []
  | fuel + 1, v =>
    if v < 16 then [hex_digit_char v]
    else to_hex_go fuel (v / 16) ++ [hex_digit_char (v % 16)]

/-- biguint_to_hex of src/key_management/key_storage.rs: uppercase hex digits of
the value, no prefix, and the single digit 0 for the value 0.  Strings are
embedded as lists of characters. -/
def biguint_to_hex (v : Nat) : List Char := to_hex_go (v + 1) v

/-- char::to_digit(16): value of one hexadecimal digit character in either
case, none for any other character. -/
def hex_digit_val (c : Char) : Option Nat :=
  if 48 ≤ c.toNat ∧ c.toNat ≤ 57 then some (c.toNat - 48)
  else if 97 ≤ c.toNat ∧ c.toNat ≤ 102 then some (c.toNat - 87)
  else if 65 ≤ c.toNat ∧ c.toNat ≤ 70 then some (c.toNat - 55)
  else none

/-- Accumulating parse loop of BigUint::from_str_radix(s, 16): most significant
digit first, failing on any non-hex character. -/
def from_hex_go (acc : Nat) : List Char → Except CryptoError Nat
  | [] => .ok acc
  | c :: rest =>
    match hex_digit_val c with
    | none => .error .HexParseError
    | some d => from_hex_go (acc * 16 + d) rest

/-- hex_to_biguint of src/key_management/key_storage.rs: rejects fields longer
than MAX_HEX_FIELD_LEN before parsing; from_str_radix rejects the empty
string. -/
def hex_to_biguint (s : List Char) : Except CryptoError Nat :=
  if MAX_HEX_FIELD_LEN < s.length then
    .error (.HexFieldTooLong s.length MAX_HEX_FIELD_LEN)
  else if s.isEmpty then .error .HexParseError
  else from_hex_go 0 s

/-- PublicKeyJson of src/key_management/key_storage.rs. -/
structure PublicKeyJson where
  n : List Char
  g : List Char
  n_squared : List Char
  deriving DecidableEq, Repr

/-- SecretKeyJson of src/key_management/key_storage.rs. -/
structure SecretKeyJson where
  lambda : List Char
  mu : List Char
  deriving DecidableEq, Repr

/-- KeyPairJson of src/key_management/key_storage.rs. -/
structure KeyPairJson where
  public_key : PublicKeyJson
  secret_key : SecretKeyJson
  deriving DecidableEq, Repr

/-- public_key_to_json of src/key_management/key_storage.rs. -/
def public_key_to_json (pk : PublicKey) : PublicKeyJson :=
  ⟨biguint_to_hex pk.n, biguint_to_hex pk.g, biguint_to_hex pk.n_squared⟩

/-- secret_key_to_json of src/key_management/key_storage.rs. -/
def secret_key_to_json (sk : SecretKey) : SecretKeyJson :=
  ⟨biguint_to_hex sk.lambda, biguint_to_hex sk.mu⟩

/-- keypair_to_json of src/key_management/key_storage.rs. -/
def keypair_to_json (kp : KeyPair) : KeyPairJson :=
  ⟨public_key_to_json kp.public_key, secret_key_to_json kp.secret_key⟩

/-- json_to_public_key of src/key_management/key_storage.rs: parses the three
fields and checks n_squared == n * n, failing with KeyCoherenceError. -/
def json_to_public_key (json : PublicKeyJson) : Except CryptoError PublicKey := do
  let n ← hex_to_biguint json.n
  let g ← hex_to_biguint json.g
  let n_squared ← hex_to_biguint json.n_squared
  if n_squared ≠ n * n then .error .KeyCoherenceError
  else .ok ⟨n, g, n_squared⟩

/-- json_to_secret_key of src/key_management/key_storage.rs. -/
def json_to_secret_key (json : SecretKeyJson) : Except CryptoError SecretKey := do
  let lambda ← hex_to_biguint json.lambda
  let mu ← hex_to_biguint json.mu
  return ⟨lambda, mu⟩

/-- json_to_keypair of src/key_management/key_storage.rs. -/
def json_to_keypair (json : KeyPairJson) : Except CryptoError KeyPair := do
  let public_key ← json_to_public_key json.public_key
  let secret_key ← json_to_secret_key json.secret_key
  return ⟨public_key, secret_key⟩

/-- RegistryState of src/key_management/key_registry.rs: the value guarded by
the RwLock.  The lock itself (readers, writers, poisoning) is a concurrency
mechanism outside the shallow embedding; the operations below are the
functional content of each method on the protected state. -/
structure RegistryState where
  keypair : Option KeyPair
  kea : Option KeyPairKEA

/-- KeyRegistry::new: the empty registry state. -/
def KeyRegistry_new : RegistryState := ⟨none, none⟩

/-- KeyRegistry::set_keypair: stores the Paillier key pair slot. -/
def set_keypair (s : RegistryState) (kp : KeyPair) : RegistryState :=
  ⟨some kp, s.kea⟩

/-- KeyRegistry::clear_keypair: empties the Paillier key pair slot. -/
def clear_keypair (s : RegistryState) : RegistryState :=
  ⟨none, s.kea⟩

/-- KeyRegistry::set_kea: stores the KEA slot. -/
def set_kea (s : RegistryState) (kea : KeyPairKEA) : RegistryState :=
  ⟨s.keypair, some kea⟩

/-- KeyRegistry::clear_kea: empties the KEA slot. -/
def clear_kea (s : RegistryState) : RegistryState :=
  ⟨s.keypair, none⟩

/-- KeyRegistry::public_key: clone of the public key, or NoPaillierKey. -/
def public_key (s : RegistryState) : Except RegistryError PublicKey :=
  match s.keypair with
  | some kp => .ok kp.public_key
  | none => .error .NoPaillierKey

/-- KeyRegistry::with_secret_key: applies the caller's computation to the
borrowed secret key, or NoPaillierKey. -/
def with_secret_key {T : Type} (s : RegistryState) (f : SecretKey → T) :
    Except RegistryError T :=
  match s.keypair with
  | some kp => .ok (f kp.secret_key)
  | none => .error .NoPaillierKey

/-- KeyRegistry::with_kea: applies the caller's computation to the borrowed KEA
key pair, or NoKeaKey. -/
def with_kea {T : Type} (s : RegistryState) (f : KeyPairKEA → T) :
    Except RegistryError T :=
  match s.kea with
  | some kea => .ok (f kea)
  | none => .error .NoKeaKey

/-- KeyRegistry::has_keypair: best-effort probe of the Paillier slot. -/
def has_keypair (s : RegistryState) : Bool :=
  s.keypair.isSome

/-- KeyRegistry::has_kea: best-effort probe of the KEA slot. -/
def has_kea (s : RegistryState) : Bool :=
  s.kea.isSome

/-! Concrete key material used by witnesses and failing-input evaluations:
p = 5 and q = 7 are distinct safe primes, and p_keygen_core 5 7 produces
n = 35, g = 36, n_squared = 1225, lambda = 12, mu = 3. -/

/-- Public key produced by p_keygen_core 5 7. -/
def pk35 : PublicKey := ⟨35, 36, 1225⟩

/-- Secret key produced by p_keygen_core 5 7. -/
def sk35 : SecretKey := ⟨12, 3⟩

/-! Helper lemmas about the fueled bit-length loop. -/

theorem bits_go_zero (fuel : Nat) : bits_go fuel 0 = 0 := by
  cases fuel <;> rfl

theorem log2_div2 (a : Nat) (h : 2 ≤ a) : Nat.log2 a = Nat.log2 (a / 2) + 1 := by
  have ha : a ≠ 0 := by omega
  have hd : a / 2 ≠ 0 := by omega
  have t1 : 2 ^ Nat.log2 (a / 2) ≤ a / 2 := Nat.log2_self_le hd
  have t2 : a / 2 < 2 ^ (Nat.log2 (a / 2) + 1) := Nat.lt_log2_self
  have hp1 : 2 ^ (Nat.log2 (a / 2) + 1) = 2 ^ Nat.log2 (a / 2) * 2 := pow_succ 2 _
  have hp2 : 2 ^ (Nat.log2 (a / 2) + 2) = 2 ^ (Nat.log2 (a / 2) + 1) * 2 := pow_succ 2 _
  have t3 : Nat.log2 (a / 2) + 1 ≤ Nat.log2 a := (Nat.le_log2 ha).mpr (by omega)
  have t4 : Nat.log2 a < Nat.log2 (a / 2) + 2 := (Nat.log2_lt ha).mpr (by omega)
  omega

theorem bits_go_eq (fuel a : Nat) (h : a ≤ fuel) :
    bits_go fuel a = if a = 0 then 0 else Nat.log2 a + 1 := by
  induction fuel generalizing a with
  | zero =>
    have ha : a = 0 := by omega
    subst ha
    rfl
  | succ f ih =>
    simp only [bits_go]
    by_cases ha : a = 0
    · simp [ha]
    · rw [if_neg ha, if_neg ha]
      by_cases ha2 : a < 2
      · have h1 : a = 1 := by omega
        subst h1
        rw [show (1 : Nat) / 2 = 0 from rfl, bits_go_zero]
        have hl : Nat.log2 1 < 1 := (Nat.log2_lt (by norm_num)).mpr (by norm_num)
        omega
      · rw [ih (a / 2) (by omega), if_neg (by omega : ¬ a / 2 = 0)]
        have := log2_div2 a (by omega)
        omega

theorem bitsOf_eq (a : Nat) : bitsOf a = if a = 0 then 0 else Nat.log2 a + 1 :=
  bits_go_eq a a le_rfl

/-- C1: the CF-mul law fails on the code.  On the valid key pair generated from
the safe primes 5 and 7, with m1 = 5, b1 = 1, m2 = 6, b2 = 2 (and encryption
randomness 2, 3 and 2), decrypting the cf_mul output with cf_mul_dec yields 18,
not (5 * 6) mod 35 = 30: cf_mul discards the computed A = c1^(c0') mod n-squared
and reduces ciphertext products modulo n instead of n-squared. -/
theorem cf_mul_dec_cf_mul_failing_input :
    p_keygen_core 5 7 = .ok ⟨pk35, sk35⟩ ∧
    cf_encrypt 5 1 2 pk35 = .ok (4, 648) ∧
    cf_encrypt 6 2 3 pk35 = .ok (4, 222) ∧
    (cf_mul (4, 648) (4, 222) 2 pk35).bind (fun t => cf_mul_dec t pk35 sk35) =
      .ok 18 ∧
    5 * 6 % 35 = 30 ∧ 18 ≠ 30 :=
  ⟨rfl, rfl, rfl, rfl, rfl, by decide⟩

/-- C2: the first component returned by cf_mul is not (E * A * B) mod n-squared.
At the first-form inputs (4, 648) and (4, 222) under pk35 with encryption
randomness 2, the code returns first component 23, while E = 298,
A = 648^4 mod 1225 = 1166, B = 222^4 mod 1225 = 1031 give
(E * A * B) mod 1225 = 508: the code multiplies E by B twice (never by A) and
reduces modulo n = 35 instead of n-squared. -/
theorem cf_mul_first_component_failing_input :
    cf_mul (4, 648) (4, 222) 2 pk35 = .ok (23, 648, 222) ∧
    p_encrypt (4 * 4 % 35) 2 pk35 = .ok 298 ∧
    powMod 648 4 1225 = 1166 ∧
    powMod 222 4 1225 = 1031 ∧
    298 * 1166 * 1031 % 1225 = 508 ∧
    23 ≠ 508 :=
  ⟨rfl, rfl, rfl, rfl, rfl, by decide⟩

/-- C3: cf_add does not return ((a0 + b0) mod n, (a1 * b1) mod n_squared).  At
inputs (1, 2), (1, 3) with n = 5 and n_squared = 25 the code returns (2, 1):
the second component is (2 * 3) mod 5 = 1 (karatsuba_mul reduces modulo n), not
(2 * 3) mod 25 = 6. -/
theorem cf_add_failing_input :
    cf_add (1, 2) (1, 3) 5 25 = (2, 1) ∧
    (1 + 1) % 5 = 2 ∧ 2 * 3 % 25 = 6 ∧ (1 : Nat) ≠ 6 :=
  ⟨rfl, rfl, rfl, by decide⟩

/-- C4 (counterexample): karatsuba_mul is not modular multiplication once both
operands have at least 64 bits.  At a = 2^63 + 1, b = 2^63, n = 2^64 the code
returns 0 while (a * b) mod n = 2^63. -/
theorem karatsuba_mul_counterexample :
    karatsuba_mul (2 ^ 63 + 1) (2 ^ 63) (2 ^ 64) = 0 ∧
    (2 ^ 63 + 1) * 2 ^ 63 % 2 ^ 64 = 2 ^ 63 ∧
    (0 : Nat) ≠ 2 ^ 63 :=
  ⟨rfl, rfl, by decide⟩

/-- C4 (amended): karatsuba_mul computes (a * b) mod n whenever at least one
operand has fewer than 64 bits (the schoolbook branch); for larger operands it
applies a spurious Montgomery factor and is not modular multiplication. -/
theorem karatsuba_mul_small_correct (a b n : Nat) (hn : 1 ≤ n)
    (h : bitsOf a < 64 ∨ bitsOf b < 64) :
    karatsuba_mul a b n = a * b % n := by
  simp only [karatsuba_mul]
  rw [if_pos h]

/-- Witness for the amended C4 at a = 3, b = 5, n = 7. -/
theorem karatsuba_mul_small_correct_witness :
    1 ≤ 7 ∧ (bitsOf 3 < 64 ∨ bitsOf 5 < 64) ∧ karatsuba_mul 3 5 7 = 3 * 5 % 7 :=
  ⟨by decide, Or.inl (by decide),
    karatsuba_mul_small_correct 3 5 7 (by decide) (Or.inl (by decide))⟩

/-- C6: whenever generate_safe_prime nbits returns Ok p, the value p has exactly
nbits bits, and for nbits < 128 it fails with KeySizeTooSmall. -/
theorem generate_safe_prime_bits (nbits x : Nat) :
    (nbits < 128 →
      generate_safe_prime nbits x = .error (.KeySizeTooSmall nbits 128)) ∧
    (∀ pr, generate_safe_prime nbits x = .ok pr → bitsOf pr = nbits) := by
  constructor
  · intro h
    simp [generate_safe_prime, h]
  · intro pr h
    by_cases h128 : nbits < 128
    · simp [generate_safe_prime, h128] at h
    · have h4 : ¬ nbits < 4 := by omega
      simp only [generate_safe_prime, h128, h4, if_false, Except.ok.injEq] at h
      subst h
      have hb : 128 ≤ nbits := Nat.le_of_not_lt h128
      set s := sophie_candidate nbits x with hs
      have hup : s < 2 ^ (nbits - 1) := by
        rw [hs]
        unfold sophie_candidate
        apply Nat.or_lt_two_pow
        · apply Nat.or_lt_two_pow
          · apply Nat.or_lt_two_pow
            · exact Nat.mod_lt _ (Nat.two_pow_pos _)
            · exact Nat.pow_lt_pow_right (by norm_num) (by omega)
          · exact Nat.pow_lt_pow_right (by norm_num) (by omega)
        · exact Nat.one_lt_two_pow_iff.mpr (by omega)
      have hlo : 2 ^ (nbits - 2) ≤ s := by
        apply Nat.testBit_implies_ge (i := nbits - 2)
        rw [hs]
        unfold sophie_candidate
        simp [Nat.testBit_or, Nat.testBit_two_pow_self]
      have hpow1 : 2 ^ (nbits - 1) = 2 ^ (nbits - 2) * 2 := by
        rw [show nbits - 1 = nbits - 2 + 1 from by omega, pow_succ]
      have hpow2 : 2 ^ nbits = 2 ^ (nbits - 1) * 2 := by
        rw [← pow_succ]
        congr 1
        omega
      have hne : 2 * s + 1 ≠ 0 := by omega
      rw [bitsOf_eq, if_neg hne]
      have hl1 : nbits - 1 ≤ Nat.log2 (2 * s + 1) :=
        (Nat.le_log2 hne).mpr (by omega)
      have hl2 : Nat.log2 (2 * s + 1) < nbits :=
        (Nat.log2_lt hne).mpr (by omega)
      omega

/-- Witness for C6: at nbits = 100 the generator fails with KeySizeTooSmall,
and at nbits = 128 (draw 5) the returned value has exactly 128 bits. -/
theorem generate_safe_prime_bits_witness :
    generate_safe_prime 100 0 = .error (.KeySizeTooSmall 100 128) ∧
    generate_safe_prime 128 5 = .ok (2 * sophie_candidate 128 5 + 1) ∧
    bitsOf (2 * sophie_candidate 128 5 + 1) = 128 :=
  ⟨(generate_safe_prime_bits 100 0).1 (by decide), rfl,
    (generate_safe_prime_bits 128 5).2 _ rfl⟩

/-! Small reduction helpers for Except used by the proofs below. -/

theorem except_bind_ok {ε α β : Type} (a : α) (f : α → Except ε β) :
    (Except.ok a : Except ε α) >>= f = f a := rfl

theorem except_bind_error {ε α β : Type} (e : ε) (f : α → Except ε β) :
    (Except.error e : Except ε α) >>= f = .error e := rfl

theorem except_map_ok {ε α β : Type} (f : α → β) (a : α) :
    Except.map f (Except.ok a : Except ε α) = .ok (f a) := rfl

theorem except_dot_bind_ok {ε α β : Type} (a : α) (f : α → Except ε β) :
    (Except.ok a : Except ε α).bind f = f a := rfl

/-- C9: the registry operations on one slot do not disturb the other slot:
set_kea and clear_kea leave the observations public_key and with_secret_key
unchanged, and set_keypair and clear_keypair leave the KEA slot unchanged. -/
theorem registry_frame (s : RegistryState) (k : KeyPairKEA) (kp : KeyPair) :
    public_key (set_kea s k) = public_key s ∧
    public_key (clear_kea s) = public_key s ∧
    (∀ (T : Type) (f : SecretKey → T),
      with_secret_key (set_kea s k) f = with_secret_key s f) ∧
    (∀ (T : Type) (f : SecretKey → T),
      with_secret_key (clear_kea s) f = with_secret_key s f) ∧
    (set_keypair s kp).kea = s.kea ∧
    (clear_keypair s).kea = s.kea ∧
    (∀ (T : Type) (f : KeyPairKEA → T),
      with_kea (set_keypair s kp) f = with_kea s f) ∧
    (∀ (T : Type) (f : KeyPairKEA → T),
      with_kea (clear_keypair s) f = with_kea s f) :=
  ⟨rfl, rfl, fun _ _ => rfl, fun _ _ => rfl, rfl, rfl, fun _ _ => rfl,
    fun _ _ => rfl⟩

/-- Arithmetic core of cf_encrypt: the branching Nat subtraction followed by
reduction modulo n computes the integer (m - b) mod n when m < n. -/
theorem cf_sub_mod_int (m b n : Nat) (hm : m < n) :
    (((if b % n ≤ m then m - b % n else m + n - b % n) % n : Nat) : Int)
      = ((m : Int) - (b : Int)) % (n : Int) := by
  have hn : 0 < n := lt_of_le_of_lt (Nat.zero_le _) hm
  have hrn : b % n < n := Nat.mod_lt _ hn
  have hmz : (m : Int) % (n : Int) = (m : Int) :=
    Int.emod_eq_of_lt (by positivity) (by exact_mod_cast hm)
  have hbz : (b : Int) % (n : Int) = ((b % n : Nat) : Int) :=
    (Int.natCast_mod b n).symm
  rw [Int.sub_emod, hmz, hbz]
  by_cases h1 : b % n ≤ m
  · rw [if_pos h1]
    have hlt : m - b % n < n := lt_of_le_of_lt (Nat.sub_le _ _) hm
    rw [Nat.mod_eq_of_lt hlt]
    rw [Int.emod_eq_of_lt (by exact_mod_cast Nat.zero_le _) (by exact_mod_cast hlt)]
    · push_cast [h1]
      ring
  · rw [if_neg h1]
    have h2 : m < b % n := Nat.lt_of_not_le h1
    have hlt : m + n - b % n < n := by omega
    rw [Nat.mod_eq_of_lt hlt]
    have hre : ((m : Int) - ((b % n : Nat) : Int)) % (n : Int)
        = ((m : Int) - ((b % n : Nat) : Int) + (n : Int) * 1) % (n : Int) := by
      rw [Int.add_mul_emod_self_left]
    rw [hre]
    rw [Int.emod_eq_of_lt (by push_cast; omega) (by push_cast; omega)]
    push_cast [Nat.le_of_lt h2, le_of_lt (lt_of_lt_of_le h2 (le_of_lt hrn))]
    omega

/-- C10: cf_encrypt fails with MessageOutOfRange exactly when message ≥ n; for
every message below n it accepts an arbitrary, unbounded mask: it succeeds with
first component (message - masque) mod n, below n, and second component the
Paillier encryption of masque mod n (the mask is reduced, never rejected). -/
theorem cf_encrypt_spec (pk : PublicKey) (message masque r : Nat)
    (hr1 : 1 ≤ r) (hrn : r < pk.n) (hrg : gcd r pk.n = 1) :
    (cf_encrypt message masque r pk = .error .MessageOutOfRange ↔
      pk.n ≤ message) ∧
    (message < pk.n → ∃ c0 c1,
      cf_encrypt message masque r pk = .ok (c0, c1) ∧
      c0 < pk.n ∧
      (c0 : Int) = ((message : Int) - (masque : Int)) % (pk.n : Int) ∧
      p_encrypt (masque % pk.n) r pk = .ok c1) := by
  have main : message < pk.n → ∃ c0 c1,
      cf_encrypt message masque r pk = .ok (c0, c1) ∧
      c0 < pk.n ∧
      (c0 : Int) = ((message : Int) - (masque : Int)) % (pk.n : Int) ∧
      p_encrypt (masque % pk.n) r pk = .ok c1 := by
    intro hm
    have hn : 0 < pk.n := lt_of_le_of_lt (Nat.zero_le _) hm
    have hrmn : masque % pk.n < pk.n := Nat.mod_lt _ hn
    have hmn : message % pk.n = message := Nat.mod_eq_of_lt hm
    refine ⟨(if masque % pk.n ≤ message then message - masque % pk.n
        else message + pk.n - masque % pk.n) % pk.n,
      powMod pk.g (masque % pk.n) pk.n_squared *
        powMod r pk.n pk.n_squared % pk.n_squared, ?_, ?_, ?_, ?_⟩
    · simp only [cf_encrypt, if_neg (not_le.mpr hm), p_encrypt,
        if_neg (not_le.mpr hrmn), hmn]
      rfl
    · exact Nat.mod_lt _ hn
    · exact cf_sub_mod_int message masque pk.n hm
    · simp only [p_encrypt, if_neg (not_le.mpr hrmn)]
  refine ⟨⟨?_, ?_⟩, main⟩
  · intro h
    by_contra hno
    have hm : message < pk.n := Nat.lt_of_not_le hno
    obtain ⟨c0, c1, heq, -, -, -⟩ := main hm
    rw [heq] at h
    exact Except.noConfusion h
  · intro h
    simp [cf_encrypt, h]

/-- Witness for C10 under pk35 with message 5, mask 100 (above n) and
randomness 2. -/
theorem cf_encrypt_spec_witness :
    1 ≤ 2 ∧ 2 < 35 ∧ gcd 2 35 = 1 ∧
    (cf_encrypt 5 100 2 pk35 = .error .MessageOutOfRange ↔ 35 ≤ 5) ∧
    (5 < 35 → ∃ c0 c1,
      cf_encrypt 5 100 2 pk35 = .ok (c0, c1) ∧
      c0 < 35 ∧
      (c0 : Int) = ((5 : Int) - (100 : Int)) % (35 : Int) ∧
      p_encrypt (100 % 35) 2 pk35 = .ok c1) :=
  ⟨by decide, by decide, by decide,
    (cf_encrypt_spec pk35 5 100 2 (by decide) (by decide) (by decide)).1,
    (cf_encrypt_spec pk35 5 100 2 (by decide) (by decide) (by decide)).2⟩

/-- C7: with both ciphertext components decryptable, paillier_kea_decrypt fails
with KeaImVerFailed exactly when the decryption of c1 differs from psy times
the decryption of c0 modulo n, and otherwise returns the decryption of c0. -/
theorem paillier_kea_decrypt_spec (pk : PublicKey) (sk : SecretKey)
    (psy c0 c1 d0 d1 : Nat) (hn : 0 < pk.n)
    (h0 : p_decrypt c0 pk sk = .ok d0)
    (h1 : p_decrypt c1 pk sk = .ok d1) :
    (paillier_kea_decrypt pk sk psy (c0, c1) = .error .KeaImVerFailed ↔
      ¬ psy * d0 ≡ d1 [MOD pk.n]) ∧
    (psy * d0 ≡ d1 [MOD pk.n] →
      paillier_kea_decrypt pk sk psy (c0, c1) = .ok d0) := by
  have hd1 : d1 < pk.n := by
    by_cases hc : pk.n_squared ≤ c1
    · simp [p_decrypt, hc] at h1
    · simp only [p_decrypt, if_neg hc, Except.ok.injEq] at h1
      rw [← h1]
      exact Nat.mod_lt _ hn
  have hmod : (psy * d0 ≡ d1 [MOD pk.n]) ↔ psy * d0 % pk.n = d1 := by
    unfold Nat.ModEq
    rw [Nat.mod_eq_of_lt hd1]
  have hrun : paillier_kea_decrypt pk sk psy (c0, c1) =
      (if (psy * d0 % pk.n == d1) = true then p_decrypt c0 pk sk
        else .error .KeaImVerFailed) := by
    simp only [paillier_kea_decrypt, paillier_kea_img_verif, h0, h1,
      except_bind_ok, except_bind_error, Bool.not_eq_true]
    by_cases hb : (psy * d0 % pk.n == d1) = true
    · simp [hb]
    · simp [hb]
  constructor
  · rw [hrun]
    by_cases hb : (psy * d0 % pk.n == d1) = true
    · rw [if_pos hb, h0]
      simp only [beq_iff_eq] at hb
      constructor
      · intro hfalse
        exact Except.noConfusion hfalse
      · intro hne
        exact absurd (hmod.mpr hb) hne
    · rw [if_neg hb]
      simp only [beq_iff_eq] at hb
      constructor
      · intro _
        rw [hmod]
        exact hb
      · intro _
        rfl
  · intro hok
    rw [hrun, if_pos (by simpa using hmod.mp hok), h0]

/-- Witness for C7 under pk35 and sk35: c0 = 648 decrypts to 1, c1 = 222
decrypts to 2, and with psy = 2 the verification 2 * 1 = 2 mod 35 passes. -/
theorem paillier_kea_decrypt_spec_witness :
    0 < 35 ∧ p_decrypt 648 pk35 sk35 = .ok 1 ∧ p_decrypt 222 pk35 sk35 = .ok 2 ∧
    (paillier_kea_decrypt pk35 sk35 2 (648, 222) = .error .KeaImVerFailed ↔
      ¬ 2 * 1 ≡ 2 [MOD 35]) ∧
    (2 * 1 ≡ 2 [MOD 35] → paillier_kea_decrypt pk35 sk35 2 (648, 222) = .ok 1) :=
  ⟨by decide, rfl, rfl,
    (paillier_kea_decrypt_spec pk35 sk35 2 648 222 1 2 (by decide) rfl rfl).1,
    (paillier_kea_decrypt_spec pk35 sk35 2 648 222 1 2 (by decide) rfl rfl).2⟩

/-! Helper lemmas for the hexadecimal round trip. -/

theorem hex_digit_roundtrip (d : Nat) (h : d < 16) :
    hex_digit_val (hex_digit_char d) = some d := by
  interval_cases d <;> decide

theorem from_hex_go_append (l1 l2 : List Char) (acc v : Nat)
    (h : from_hex_go acc l1 = .ok v) :
    from_hex_go acc (l1 ++ l2) = from_hex_go v l2 := by
  induction l1 generalizing acc with
  | nil =>
    simp only [from_hex_go, Except.ok.injEq] at h
    subst h
    simp
  | cons c rest ih =>
    simp only [from_hex_go, List.cons_append] at h ⊢
    cases hv : hex_digit_val c with
    | none =>
      rw [hv] at h
      exact Except.noConfusion h
    | some d =>
      rw [hv] at h
      exact ih _ h

theorem from_to_hex (fuel v acc : Nat) (h : v < fuel) :
    from_hex_go acc (to_hex_go fuel v) =
      .ok (acc * 16 ^ (to_hex_go fuel v).length + v) := by
  induction fuel generalizing v acc with
  | zero => omega
  | succ f ih =>
    simp only [to_hex_go]
    by_cases hv : v < 16
    · rw [if_pos hv]
      simp only [from_hex_go, hex_digit_roundtrip v hv, List.length_singleton,
        pow_one]
    · rw [if_neg hv]
      have hdiv : v / 16 < f := by omega
      rw [from_hex_go_append _ _ _ _ (ih (v / 16) acc hdiv)]
      have hm : v % 16 < 16 := Nat.mod_lt _ (by norm_num)
      simp only [from_hex_go, hex_digit_roundtrip _ hm, List.length_append,
        List.length_singleton, Except.ok.injEq]
      rw [pow_succ, ← mul_assoc]
      omega

theorem to_hex_go_ne_nil (fuel v : Nat) (h : 0 < fuel) : to_hex_go fuel v ≠ [] := by
  cases fuel with
  | zero => omega
  | succ f =>
    simp only [to_hex_go]
    by_cases hv : v < 16
    · simp [hv]
    · simp [hv]

theorem hex_to_biguint_roundtrip (v : Nat)
    (hlen : (biguint_to_hex v).length ≤ MAX_HEX_FIELD_LEN) :
    hex_to_biguint (biguint_to_hex v) = .ok v := by
  unfold hex_to_biguint
  rw [if_neg (not_lt.mpr hlen)]
  have hne : biguint_to_hex v ≠ [] := to_hex_go_ne_nil (v + 1) v (by omega)
  rw [if_neg (by simpa [List.isEmpty_iff] using hne)]
  unfold biguint_to_hex
  rw [from_to_hex (v + 1) v 0 (by omega)]
  simp

/-- C8: for a key pair whose public key satisfies n_squared = n * n and whose
hex encodings fit the parser field-length bound, serializing with
keypair_to_json and parsing back with json_to_keypair returns the key pair
unchanged (the coherence check passes). -/
theorem keypair_json_roundtrip (kp : KeyPair)
    (hcoh : kp.public_key.n_squared = kp.public_key.n * kp.public_key.n)
    (h1 : (biguint_to_hex kp.public_key.n).length ≤ MAX_HEX_FIELD_LEN)
    (h2 : (biguint_to_hex kp.public_key.g).length ≤ MAX_HEX_FIELD_LEN)
    (h3 : (biguint_to_hex kp.public_key.n_squared).length ≤ MAX_HEX_FIELD_LEN)
    (h4 : (biguint_to_hex kp.secret_key.lambda).length ≤ MAX_HEX_FIELD_LEN)
    (h5 : (biguint_to_hex kp.secret_key.mu).length ≤ MAX_HEX_FIELD_LEN) :
    json_to_keypair (keypair_to_json kp) = .ok kp := by
  obtain ⟨⟨n, g, ns⟩, ⟨lam, mu⟩⟩ := kp
  simp only at hcoh h1 h2 h3 h4 h5
  simp only [json_to_keypair, keypair_to_json, json_to_public_key,
    public_key_to_json, json_to_secret_key, secret_key_to_json,
    hex_to_biguint_roundtrip _ h1, hex_to_biguint_roundtrip _ h2,
    hex_to_biguint_roundtrip _ h3, hex_to_biguint_roundtrip _ h4,
    hex_to_biguint_roundtrip _ h5, except_bind_ok]
  rw [if_neg (by simpa using hcoh)]
  rfl

/-- Witness for C8 on the key pair generated from the safe primes 5 and 7. -/
theorem keypair_json_roundtrip_witness :
    (1225 : Nat) = 35 * 35 ∧
    (biguint_to_hex 35).length ≤ MAX_HEX_FIELD_LEN ∧
    json_to_keypair (keypair_to_json ⟨pk35, sk35⟩) = .ok ⟨pk35, sk35⟩ :=
  ⟨by decide, by decide,
    keypair_json_roundtrip ⟨pk35, sk35⟩ (by decide) (by decide) (by decide)
      (by decide) (by decide) (by decide)⟩

/-! Number-theoretic helper lemmas for the Paillier round trip (C5). -/

theorem lcm_eq_natLcm (a b : Nat) : lcm a b = Nat.lcm a b := rfl

/-- Binomial identity: (n + 1) ^ k = 1 + k n modulo n squared. -/
theorem one_add_pow_modEq (n k : Nat) : (n + 1) ^ k ≡ 1 + k * n [MOD n * n] := by
  induction k with
  | zero =>
    have h0 : (n + 1) ^ 0 = 1 + 0 * n := by ring
    rw [h0]
  | succ k ih =>
    have h1 : (n + 1) ^ (k + 1) ≡ (1 + k * n) * (n + 1) [MOD n * n] := by
      rw [pow_succ]
      exact ih.mul_right _
    have h2 : (1 + k * n) * (n + 1) = 1 + (k + 1) * n + k * (n * n) := by ring
    have h3 : 1 + (k + 1) * n + k * (n * n) ≡ 1 + (k + 1) * n [MOD n * n] := by
      have hz : k * (n * n) ≡ 0 [MOD n * n] :=
        (Nat.modEq_zero_iff_dvd).mpr (dvd_mul_left _ _)
      have hadd := (Nat.ModEq.refl (1 + (k + 1) * n)).add hz
      simpa using hadd
    exact h1.trans (h2 ▸ h3)

/-- Euler theorem modulo a prime square. -/
theorem pow_p_mul_p_sub_one (p r : Nat) (hp : Nat.Prime p) (hnd : ¬ p ∣ r) :
    r ^ (p * (p - 1)) ≡ 1 [MOD p * p] := by
  have hc : Nat.Coprime r p := (hp.coprime_iff_not_dvd.mpr hnd).symm
  have hc2 : Nat.Coprime r (p * p) := hc.mul_right hc
  have ht : Nat.totient (p * p) = p * (p - 1) := by
    rw [← pow_two, Nat.totient_prime_pow hp (by norm_num)]
    simp
  calc r ^ (p * (p - 1)) = r ^ Nat.totient (p * p) := by rw [ht]
  _ ≡ 1 [MOD p * p] := Nat.ModEq.pow_totient hc2

/-- Core Carmichael-style fact: r ^ (n * lam) = 1 modulo n squared for
n = p * q a product of distinct primes, r coprime to n, and lam a common
multiple of p - 1 and q - 1. -/
theorem pow_n_lambda_modEq (p q r lam : Nat) (hp : Nat.Prime p)
    (hq : Nat.Prime q) (hne : p ≠ q) (hgcd : Nat.Coprime r (p * q))
    (hdp : (p - 1) ∣ lam) (hdq : (q - 1) ∣ lam) :
    r ^ (p * q * lam) ≡ 1 [MOD (p * q) * (p * q)] := by
  have hrp : Nat.Coprime r p :=
    Nat.Coprime.coprime_dvd_right (dvd_mul_right p q) hgcd
  have hrq : Nat.Coprime r q :=
    Nat.Coprime.coprime_dvd_right (dvd_mul_left q p) hgcd
  obtain ⟨lp, hlp⟩ := hdp
  obtain ⟨lq, hlq⟩ := hdq
  have m1 : r ^ (p * q * lam) ≡ 1 [MOD p * p] := by
    have e1 : p * q * lam = p * (p - 1) * (q * lp) := by rw [hlp]; ring
    rw [e1, pow_mul]
    have base := pow_p_mul_p_sub_one p r hp (hp.coprime_iff_not_dvd.mp hrp.symm)
    calc (r ^ (p * (p - 1))) ^ (q * lp) ≡ 1 ^ (q * lp) [MOD p * p] :=
      base.pow _
    _ = 1 := one_pow _
  have m2 : r ^ (p * q * lam) ≡ 1 [MOD q * q] := by
    have e2 : p * q * lam = q * (q - 1) * (p * lq) := by rw [hlq]; ring
    rw [e2, pow_mul]
    have base := pow_p_mul_p_sub_one q r hq (hq.coprime_iff_not_dvd.mp hrq.symm)
    calc (r ^ (q * (q - 1))) ^ (p * lq) ≡ 1 ^ (p * lq) [MOD q * q] :=
      base.pow _
    _ = 1 := one_pow _
  have hpq : Nat.Coprime p q := (Nat.coprime_primes hp hq).mpr hne
  have hcop : Nat.Coprime (p * p) (q * q) :=
    Nat.Coprime.mul (hpq.mul_right hpq) (hpq.mul_right hpq)
  have hcomb := (Nat.modEq_and_modEq_iff_modEq_mul hcop).mp ⟨m1, m2⟩
  have e3 : p * p * (q * q) = (p * q) * (p * q) := by ring
  rwa [e3] at hcomb

/-- Normal form of (1 + a n) modulo n squared. -/
theorem one_add_mul_mod_sq (n a : Nat) (hn : 2 ≤ n) :
    (1 + a * n) % (n * n) = 1 + a % n * n := by
  have hmlt : a % n < n := Nat.mod_lt _ (by omega)
  have h2 : a % n * n ≤ (n - 1) * n :=
    Nat.mul_le_mul_right n (by omega)
  have h3 : (n - 1) * n = n * n - 1 * n := by rw [Nat.sub_mul]
  have h4 : 2 * n ≤ n * n := Nat.mul_le_mul_right n hn
  have h1 : 1 + a % n * n < n * n := by omega
  have hcong : 1 + a * n ≡ 1 + a % n * n [MOD n * n] := by
    have := ((Nat.mod_modEq a n).symm.mul_right' n)
    exact (Nat.ModEq.refl 1).add this
  calc (1 + a * n) % (n * n) = (1 + a % n * n) % (n * n) := hcong
  _ = 1 + a % n * n := Nat.mod_eq_of_lt h1

/-- The L function applied to the normal form recovers a mod n. -/
theorem l_function_one_add (n a : Nat) (hn : 2 ≤ n) :
    l_function ((1 + a * n) % (n * n)) n = a % n := by
  rw [one_add_mul_mod_sq n a hn]
  unfold l_function
  rw [Nat.add_sub_cancel_left]
  exact Nat.mul_div_cancel _ (by omega)

/-- Bezout invariant of the extended-gcd loop: whatever the fuel, the returned
triple (g, x, y) satisfies g = a x + b y whenever the incoming state does. -/
theorem egcd_go_bezout (a b : Nat) :
    ∀ (fuel old_r r : Nat) (old_s s old_t t : Int),
      (old_r : Int) = a * old_s + b * old_t →
      (r : Int) = a * s + b * t →
      ((egcd_go fuel old_r r old_s s old_t t).1 : Int) =
        a * (egcd_go fuel old_r r old_s s old_t t).2.1 +
          b * (egcd_go fuel old_r r old_s s old_t t).2.2 := by
  intro fuel
  induction fuel with
  | zero =>
    intro old_r r old_s s old_t t h1 _
    simpa [egcd_go] using h1
  | succ f ih =>
    intro old_r r old_s s old_t t h1 h2
    simp only [egcd_go]
    by_cases hr : r = 0
    · rw [if_pos hr]
      simpa using h1
    · rw [if_neg hr]
      apply ih
      · exact h2
      · have hc : (r : Int) * ((old_r / r : Nat) : Int) +
            ((old_r % r : Nat) : Int) = (old_r : Int) := by
          exact_mod_cast Nat.div_add_mod old_r r
        rw [h2] at hc
        linear_combination hc + h1

theorem extended_gcd_bezout (a b : Nat) :
    ((extended_gcd a b).1 : Int) =
      a * (extended_gcd a b).2.1 + b * (extended_gcd a b).2.2 := by
  apply egcd_go_bezout a b
  · ring
  · ring

/-- Correctness of mod_inverse on its Ok branch: the returned value is a
modular inverse of a. -/
theorem mod_inverse_ok (a n mu : Nat) (hn : 0 < n)
    (h : mod_inverse a n = .ok mu) : a * mu ≡ 1 [MOD n] := by
  unfold mod_inverse at h
  by_cases h1 : (extended_gcd a n).1 ≠ 1
  · simp [h1] at h
  · rw [if_neg (by simpa using h1)] at h
    push_neg at h1
    set x := (extended_gcd a n).2.1 with hx
    set xm := Int.tmod x (n : Int) with hxm
    set xm2 := if xm < 0 then xm + (n : Int) else xm with hxm2
    by_cases h2 : xm2 < 0
    · simp only [if_pos h2] at h
      exact Except.noConfusion h
    · rw [if_neg h2] at h
      have hmu : (mu : Int) = xm2 := by
        have : xm2.toNat = mu := by
          simpa using h
        rw [← this, Int.toNat_of_nonneg (not_lt.mp h2)]
      have hdvd1 : (n : Int) ∣ x - xm := by
        rw [hxm, Int.tmod_def]
        ring_nf
        exact Dvd.intro _ rfl
      have hdvd2 : (n : Int) ∣ x - xm2 := by
        rw [hxm2]
        by_cases hneg : xm < 0
        · rw [if_pos hneg]
          have : x - (xm + (n : Int)) = (x - xm) - (n : Int) * 1 := by ring
          rw [this]
          exact dvd_sub hdvd1 (Dvd.intro 1 rfl)
        · rw [if_neg hneg]
          exact hdvd1
      have hbez := extended_gcd_bezout a n
      rw [h1] at hbez
      obtain ⟨k, hk⟩ := hdvd2
      rw [Nat.modEq_iff_dvd]
      refine ⟨(a : Int) * k + (extended_gcd a n).2.2, ?_⟩
      push_cast
      rw [hmu]
      linear_combination hbez + (a : Int) * hk

/-- C5: for every key pair produced by p_keygen (embedded as p_keygen_core on
the two distinct safe primes drawn by generate_safe_prime) and every plaintext
m < n, decryption inverts encryption for any admissible random r (the value the
rejection sampler can produce: 1 <= r < n with gcd(r, n) = 1). -/
theorem p_keygen_encrypt_decrypt_roundtrip
    (p q : Nat) (hp : SafePrime p) (hq : SafePrime q) (hpq : p ≠ q)
    (kp : KeyPair) (hkg : p_keygen_core p q = .ok kp)
    (m r : Nat) (hm : m < kp.public_key.n)
    (hr1 : 1 ≤ r) (hrn : r < kp.public_key.n)
    (hgcd : gcd r kp.public_key.n = 1) :
    (p_encrypt m r kp.public_key).bind
      (fun c => p_decrypt c kp.public_key kp.secret_key) = .ok m := by
  have hpp : Nat.Prime p := hp.1
  have hqq : Nat.Prime q := hq.1
  have hp2 : 2 ≤ p := hpp.two_le
  have hq2 : 2 ≤ q := hqq.two_le
  have hn4 : 4 ≤ p * q := Nat.mul_le_mul hp2 hq2
  simp only [p_keygen_core] at hkg
  set n := p * q with hn
  set lam := lcm (p - 1) (q - 1) with hlam
  set lval := l_function ((1 + lam * n) % (n * n)) n with hlval
  have hn2 : 2 ≤ n := by omega
  have hlv : lval = lam % n := by
    rw [hlval]
    exact l_function_one_add n lam hn2
  by_cases hg1 : gcd n ((p - 1) * (q - 1)) ≠ 1
  · rw [if_pos hg1] at hkg
    exact Except.noConfusion hkg
  rw [if_neg hg1] at hkg
  by_cases hg2 : gcd lval n ≠ 1
  · rw [if_pos hg2] at hkg
    exact Except.noConfusion hkg
  rw [if_neg hg2] at hkg
  cases hmi : mod_inverse lval n with
  | error e =>
    rw [hmi] at hkg
    exact Except.noConfusion hkg
  | ok mu =>
    rw [hmi] at hkg
    simp only [except_map_ok, Except.ok.injEq] at hkg
    subst hkg
    simp only [KeyPair.public_key, KeyPair.secret_key, PublicKey.n, PublicKey.g,
      PublicKey.n_squared, SecretKey.lambda, SecretKey.mu] at hm hrn hgcd ⊢
    have hinv0 : lval * mu ≡ 1 [MOD n] := mod_inverse_ok lval n mu (by omega) hmi
    have hinv : lam * mu ≡ 1 [MOD n] := by
      calc lam * mu ≡ lam % n * mu [MOD n] :=
        ((Nat.mod_modEq lam n).symm.mul_right mu)
      _ = lval * mu := by rw [hlv]
      _ ≡ 1 [MOD n] := hinv0
    have hnn : 0 < n * n := Nat.mul_pos (by omega) (by omega)
    simp only [p_encrypt, if_neg (not_le.mpr hm), except_bind_ok,
      except_dot_bind_ok, p_decrypt, powMod]
    set c := (n + 1) ^ m % (n * n) * (r ^ n % (n * n)) % (n * n) with hc
    have hclt : ¬ n * n ≤ c := by
      rw [hc]
      exact not_le.mpr (Nat.mod_lt _ hnn)
    rw [if_neg hclt]
    have hcmod : c ≡ (n + 1) ^ m * r ^ n [MOD n * n] := by
      rw [hc]
      calc (n + 1) ^ m % (n * n) * (r ^ n % (n * n)) % (n * n)
          ≡ (n + 1) ^ m % (n * n) * (r ^ n % (n * n)) [MOD n * n] :=
        Nat.mod_modEq _ _
      _ ≡ (n + 1) ^ m * r ^ n [MOD n * n] :=
        Nat.ModEq.mul (Nat.mod_modEq _ _) (Nat.mod_modEq _ _)
    have hrlam : r ^ (n * lam) ≡ 1 [MOD n * n] := by
      have hco : Nat.Coprime r (p * q) := by
        rw [← hn]
        exact hgcd
      have hdl : (p - 1) ∣ lam := by
        rw [hlam, lcm_eq_natLcm]
        exact Nat.dvd_lcm_left _ _
      have hdr : (q - 1) ∣ lam := by
        rw [hlam, lcm_eq_natLcm]
        exact Nat.dvd_lcm_right _ _
      have := pow_n_lambda_modEq p q r lam hpp hqq hpq hco hdl hdr
      rwa [← hn] at this
    have hglam : (n + 1) ^ (m * lam) ≡ 1 + m * lam * n [MOD n * n] :=
      one_add_pow_modEq n (m * lam)
    have hclam : c ^ lam ≡ 1 + m * lam * n [MOD n * n] := by
      calc c ^ lam ≡ ((n + 1) ^ m * r ^ n) ^ lam [MOD n * n] := hcmod.pow lam
      _ = (n + 1) ^ (m * lam) * r ^ (n * lam) := by
        rw [mul_pow, ← pow_mul, ← pow_mul]
      _ ≡ (1 + m * lam * n) * 1 [MOD n * n] := Nat.ModEq.mul hglam hrlam
      _ = 1 + m * lam * n := mul_one _
    have hLl : l_function (c ^ lam % (n * n)) n = m * lam % n := by
      have hcc : c ^ lam % (n * n) = (1 + m * lam * n) % (n * n) := hclam
      rw [hcc]
      exact l_function_one_add n (m * lam) hn2
    rw [hLl]
    have hfin : m * lam % n * mu ≡ m [MOD n] := by
      calc m * lam % n * mu ≡ m * lam * mu [MOD n] :=
        (Nat.mod_modEq _ _).mul_right mu
      _ = m * (lam * mu) := by ring
      _ ≡ m * 1 [MOD n] := hinv.mul_left m
      _ = m := mul_one m
    have heq : m * lam % n * mu % n = m % n := hfin
    rw [heq, Nat.mod_eq_of_lt hm]

/-- Witness for C5: the key pair from the safe primes 5 and 7, message 7,
randomness 2. -/
theorem p_keygen_encrypt_decrypt_roundtrip_witness :
    SafePrime 5 ∧ SafePrime 7 ∧ (5 : Nat) ≠ 7 ∧
    p_keygen_core 5 7 = .ok ⟨pk35, sk35⟩ ∧
    7 < 35 ∧ 1 ≤ 2 ∧ 2 < 35 ∧ gcd 2 35 = 1 ∧
    (p_encrypt 7 2 pk35).bind (fun c => p_decrypt c pk35 sk35) = .ok 7 :=
  ⟨⟨by norm_num, by norm_num⟩, ⟨by norm_num, by norm_num⟩, by decide, rfl,
    by decide, by decide, by decide, by decide,
    p_keygen_encrypt_decrypt_roundtrip 5 7 ⟨by norm_num, by norm_num⟩
      ⟨by norm_num, by norm_num⟩ (by decide) ⟨pk35, sk35⟩ rfl 7 2 (by decide)
      (by decide) (by decide) (by decide)⟩

end PaillierRsc
